import Mathlib

/-!
Shallow embedding of the Pratt expression parser in `src/main.py`
(repository `lbreede/pratt-parser`), together with proofs checking the
specification's claims about it.

The Python program is a single file: a token model (`Token`), a lexer that
turns a string into a token queue, three binding-power tables, the
precedence-climbing parser `expr_bp` (a recursive function containing a
`while` loop), the public entry point `expr`, and a printer (`S.__str__`).

Modelling decisions, all traceable to the source:
* The lexer's reversed-list-with-`pop` queue is embedded as a `List Token`
  consumed from the front; `next`/`peek` return `Token.eof` on the empty
  list exactly as `Lexer.next`/`Lexer.peek` do (lines 54-62).
* Python exceptions (`BadTokenError`, `BadOpError`, and the
  `AssertionError` that the `==`-asserts on lines 136 and 150 can raise)
  become an `Except Err` result.
* The statement `assert lexer.next(), Token.Op(")")` on line 111 is a
  two-argument Python assert: its condition is the `Token` returned by
  `next()`, which is a dataclass instance and therefore always truthy, and
  `Token.Op(")")` is only the assert message.  The line consumes one token
  and can never fail, and it is embedded as exactly that.
* The recursion of `expr_bp` and its `while` loop is presented as a
  fuel-indexed interpreter (`none` = fuel exhausted); `expr_bp_total`
  below proves that fuel `tokens.length + 1` always suffices, which is the
  termination argument of the source.
-/

namespace Pratt

/-- Token model (`TokenType` and `Token`, src/main.py lines 7-31).  `eof`
stands for `Token(TokenType.EOF, "\0")`; the sentinel char takes part in no
comparison the program makes, so it is not carried here. -/
inductive Token where
  | atom : Char → Token
  | op : Char → Token
  | eof : Token
deriving DecidableEq, Repr

/-- Failure outcomes of a parse: `BadTokenError` and `BadOpError`
(src/main.py lines 34-41), plus the Python `AssertionError` that the
two-argument asserts on lines 136 and 150 raise on a missing `]` or `:`. -/
inductive Err where
  | badToken : Token → Err
  | badOp : Char → Err
  | assertionError : Err
deriving DecidableEq, Repr

/-- Embedding of `Lexer.__init__` (src/main.py lines 45-52): drop every
space (Python `.replace(" ", "")`), then classify each remaining character,
alphanumeric (`str.isalnum`, here `Char.isAlphanum`, identical on ASCII) as
an `Atom` token and anything else as an `Op` token.  The Python code builds
the list, then reverses it and pops from the back; front-of-list consumption
of the unreversed list is the same queue. -/
def tokenize (input_string : String) : List Token :=
  (input_string.data.filter (fun c => c ≠ ' ')).map
    (fun c => if c.isAlphanum then Token.atom c else Token.op c)

/-- Embedding of `Lexer.next` (src/main.py lines 54-57): pop and return the
front token, or `Eof` when the queue is empty (then the queue is unchanged). -/
def next : List Token → Token × List Token
  | [] => (Token.eof, [])
  | t :: ts => (t, ts)

/-- Embedding of `Lexer.peek` (src/main.py lines 59-62): return the front
token without consuming it, or `Eof` when the queue is empty. -/
def peek : List Token → Token
  | [] => Token.eof
  | t :: _ => t

/-- S-expression tree (`SType` and `S`, src/main.py lines 65-82): a leaf
atom, or a cons node with a head character and a list of children. -/
inductive S where
  | atom : Char → S
  | cons : Char → List S → S

/-- Embedding of `prefix_binding_power` (src/main.py lines 164-169).  The
Python function returns the pair `(None, 9)` for `+` and `-` and raises
`BadOpError` otherwise; the only caller discards the first component, so the
embedding returns the right binding power inside `Except`. -/
def prefix_binding_power (op : Char) : Except Err Nat :=
  match op with
  | '+' | '-' => Except.ok 9
  | _ => Except.error (Err.badOp op)

/-- Embedding of `postfix_binding_power` (src/main.py lines 172-179): the
pair `(11, None)` for `!` and `[`, `None` otherwise.  The caller keeps only
the left binding power, so the embedding returns `Option Nat`. -/
def postfix_binding_power (op : Char) : Option Nat :=
  match op with
  | '!' => some 11
  | '[' => some 11
  | _ => none

/-- Embedding of `infix_binding_power` (src/main.py lines 182-195): the
(left, right) binding-power pair of each supported infix operator, `None`
otherwise. -/
def infix_binding_power (op : Char) : Option (Nat × Nat) :=
  match op with
  | '=' => some (2, 1)
  | '?' => some (4, 3)
  | '+' | '-' => some (5, 6)
  | '*' | '/' => some (7, 8)
  | '.' => some (14, 13)
  | _ => none

/-- Result of one `expr_bp` run: the built tree together with the tokens the
lexer still holds, or a raised error; `none` means the fuel ran out. -/
abbrev ParseOut := Option (Except Err (S × List Token))

/-- Embedding of the `while True` loop of `expr_bp` (src/main.py lines
119-159), the part that repeatedly extends an already-built `lhs`.  The
recursive sub-parses the loop body performs (the index of `[` and the two
arms of `?`) go through the abstract `recur` argument, which `expr_bp`
instantiates with itself at one unit less fuel; the loop itself recurses
structurally on its own fuel.  Every arm mirrors one branch of the source:
peek `Eof` breaks, peek at a non-op raises `BadTokenError`, a postfix
operator is tried before an infix one, each binding-power cutoff breaks
without consuming, `[` and `?` check their closing `]` / `:` with a real
`==` assert (`Err.assertionError` on failure), and every other arm builds
the corresponding cons node and continues. -/
def lhs_loop (recur : List Token → Nat → ParseOut) :
    Nat → S → List Token → Nat → ParseOut
  | 0, _, _, _ => none
  | fuel + 1, lhs, ts, min_bp =>
    match peek ts with
    | Token.eof => some (Except.ok (lhs, ts))
    | Token.atom c => some (Except.error (Err.badToken (Token.atom c)))
    | Token.op op =>
      match postfix_binding_power op with
      | some l_bp =>
        if l_bp < min_bp then some (Except.ok (lhs, ts))
        else
          let ts1 := (next ts).2
          if op = '[' then
            match recur ts1 0 with
            | none => none
            | some (Except.error e) => some (Except.error e)
            | some (Except.ok (rhs, ts2)) =>
              let n2 := next ts2
              if n2.1 = Token.op ']' then
                lhs_loop recur fuel (S.cons op [lhs, rhs]) n2.2 min_bp
              else some (Except.error Err.assertionError)
          else
            lhs_loop recur fuel (S.cons op [lhs]) ts1 min_bp
      | none =>
        match infix_binding_power op with
        | none => some (Except.ok (lhs, ts))
        | some (l_bp, r_bp) =>
          if l_bp < min_bp then some (Except.ok (lhs, ts))
          else
            let ts1 := (next ts).2
            if op = '?' then
              match recur ts1 0 with
              | none => none
              | some (Except.error e) => some (Except.error e)
              | some (Except.ok (mhs, ts2)) =>
                let n2 := next ts2
                if n2.1 = Token.op ':' then
                  match recur n2.2 r_bp with
                  | none => none
                  | some (Except.error e) => some (Except.error e)
                  | some (Except.ok (rhs, ts3)) =>
                    lhs_loop recur fuel (S.cons op [lhs, mhs, rhs]) ts3 min_bp
                else some (Except.error Err.assertionError)
            else
              match recur ts1 r_bp with
              | none => none
              | some (Except.error e) => some (Except.error e)
              | some (Except.ok (rhs, ts2)) =>
                lhs_loop recur fuel (S.cons op [lhs, rhs]) ts2 min_bp

/-- Embedding of `expr_bp` (src/main.py lines 105-161).  Step 1 (the
`match lexer.next()`) establishes the left-hand side: an atom becomes a
leaf; `(` parses a sub-expression with `min_bp = 0` and then runs the
vacuous two-argument assert of line 111, which only consumes one further
token; any other operator is parsed as prefix (`BadOpError` when
unsupported); `Eof` raises `BadTokenError`.  Step 2 hands the result to
`lhs_loop`.  Fuel decreases by one at each recursive call. -/
def expr_bp : Nat → List Token → Nat → ParseOut
  | 0, _, _ => none
  | fuel + 1, ts, min_bp =>
    match next ts with
    | (Token.atom c, ts1) => lhs_loop (expr_bp fuel) fuel (S.atom c) ts1 min_bp
    | (Token.op c, ts1) =>
      if c = '(' then
        match expr_bp fuel ts1 0 with
        | none => none
        | some (Except.error e) => some (Except.error e)
        | some (Except.ok (lhs, ts2)) =>
          lhs_loop (expr_bp fuel) fuel lhs (next ts2).2 min_bp
      else
        match prefix_binding_power c with
        | Except.error e => some (Except.error e)
        | Except.ok r_bp =>
          match expr_bp fuel ts1 r_bp with
          | none => none
          | some (Except.error e) => some (Except.error e)
          | some (Except.ok (rhs, ts2)) =>
            lhs_loop (expr_bp fuel) fuel (S.cons c [rhs]) ts2 min_bp
    | (Token.eof, _) => some (Except.error (Err.badToken Token.eof))

/-- Embedding of `expr` (src/main.py lines 100-102): tokenize the input and
run `expr_bp` with `min_bp = 0`, discarding whatever tokens remain.  The
fuel `(tokenize s).length + 1` is sufficient by `expr_bp_total` below, so
`none` never actually occurs. -/
def expr (input_string : String) : Option (Except Err S) :=
  let ts := tokenize input_string
  match expr_bp (ts.length + 1) ts 0 with
  | none => none
  | some (Except.error e) => some (Except.error e)
  | some (Except.ok (s, _)) => some (Except.ok s)

mutual

/-- Embedding of `S.__str__` (src/main.py lines 87-97) together with its
loop over the children: an atom prints as its bare character, a cons node as
`(head` followed by a space-prefixed rendering of each child and a closing
parenthesis. -/
def S.to_string : S → String
  | S.atom c => String.singleton c
  | S.cons c vec => "(" ++ String.singleton c ++ S.children_string vec ++ ")"

/-- Rendering of a child list: the `for s in self.vec` loop inside
`S.__str__`, each child preceded by one space. -/
def S.children_string : List S → String
  | [] => ""
  | s :: rest => " " ++ S.to_string s ++ S.children_string rest

end

/-- Computation rule: popping an empty queue returns `Eof`. -/
@[simp] theorem next_nil : next [] = (Token.eof, []) := rfl

/-- Computation rule: popping a non-empty queue returns its front. -/
@[simp] theorem next_cons (t : Token) (ts : List Token) : next (t :: ts) = (t, ts) := rfl

/-- Computation rule: peeking an empty queue sees `Eof`. -/
@[simp] theorem peek_nil : peek [] = Token.eof := rfl

/-- Computation rule: peeking a non-empty queue sees its front. -/
@[simp] theorem peek_cons (t : Token) (ts : List Token) : peek (t :: ts) = t := rfl

/-- Popping the lexer never lengthens the queue. -/
theorem next_snd_length (ts : List Token) : (next ts).2.length ≤ ts.length := by
  cases ts <;> simp

/-- The loop of `expr_bp` only consumes tokens: when it returns a tree, the
remaining queue is no longer than the one it started from.  The hypothesis
is the matching fact for the `recur` argument. -/
theorem lhs_loop_length {recur : List Token → Nat → ParseOut}
    (hrec : ∀ ts m s ts', recur ts m = some (Except.ok (s, ts')) → ts'.length < ts.length) :
    ∀ fuel lhs ts m s ts',
      lhs_loop recur fuel lhs ts m = some (Except.ok (s, ts')) → ts'.length ≤ ts.length := by
  intro fuel
  induction fuel with
  | zero => intro lhs ts m s ts' h; simp [lhs_loop] at h
  | succ fuel ih =>
    intro lhs ts m s ts' h
    match ts with
    | [] =>
      simp [lhs_loop] at h
      obtain ⟨-, rfl⟩ := h
      exact Nat.le_refl _
    | Token.eof :: rest =>
      simp [lhs_loop] at h
      obtain ⟨-, rfl⟩ := h
      exact Nat.le_refl _
    | Token.atom c :: rest =>
      simp [lhs_loop] at h
    | Token.op o :: rest =>
      rcases hpost : postfix_binding_power o with - | l_bp
      · rcases hinf : infix_binding_power o with - | ⟨l_bp, r_bp⟩
        · simp [lhs_loop, hpost, hinf] at h
          obtain ⟨-, rfl⟩ := h
          exact Nat.le_refl _
        · by_cases hlt : l_bp < m
          · simp [lhs_loop, hpost, hinf, hlt] at h
            obtain ⟨-, rfl⟩ := h
            exact Nat.le_refl _
          · by_cases hq : o = '?'
            · subst hq
              rcases hr : recur rest 0 with - | ⟨e | ⟨mhs, ts2⟩⟩ <;>
                simp [lhs_loop, hpost, hinf, hlt, hr] at h
              by_cases hc : (next ts2).1 = Token.op ':'
              · rcases hr2 : recur (next ts2).2 r_bp with - | ⟨e | ⟨rhs, ts3⟩⟩ <;>
                  simp [hc, hr2] at h
                have h1 := hrec _ _ _ _ hr
                have h2 := hrec _ _ _ _ hr2
                have h3 := next_snd_length ts2
                have h4 := ih _ _ _ _ _ h
                simp only [List.length_cons]
                omega
              · simp [hc] at h
            · rcases hr : recur rest r_bp with - | ⟨e | ⟨rhs, ts2⟩⟩ <;>
                simp [lhs_loop, hpost, hinf, hlt, hq, hr] at h
              have h1 := hrec _ _ _ _ hr
              have h2 := ih _ _ _ _ _ h
              simp only [List.length_cons]
              omega
      · by_cases hlt : l_bp < m
        · simp [lhs_loop, hpost, hlt] at h
          obtain ⟨-, rfl⟩ := h
          exact Nat.le_refl _
        · by_cases hbr : o = '['
          · subst hbr
            rcases hr : recur rest 0 with - | ⟨e | ⟨rhs, ts2⟩⟩ <;>
              simp [lhs_loop, hpost, hlt, hr] at h
            by_cases hc : (next ts2).1 = Token.op ']'
            · simp [hc] at h
              have h1 := hrec _ _ _ _ hr
              have h2 := next_snd_length ts2
              have h3 := ih _ _ _ _ _ h
              simp only [List.length_cons]
              omega
            · simp [hc] at h
          · simp [lhs_loop, hpost, hlt, hbr] at h
            have h1 := ih _ _ _ _ _ h
            simp only [List.length_cons]
            omega

/-- The parser only consumes tokens, and at least the one its step 1 pops:
a successful `expr_bp` run leaves a strictly shorter queue. -/
theorem expr_bp_length :
    ∀ fuel ts m s ts',
      expr_bp fuel ts m = some (Except.ok (s, ts')) → ts'.length < ts.length := by
  intro fuel
  induction fuel with
  | zero => intro ts m s ts' h; simp [expr_bp] at h
  | succ fuel ih =>
    intro ts m s ts' h
    match ts with
    | [] => simp [expr_bp] at h
    | Token.eof :: rest => simp [expr_bp] at h
    | Token.atom c :: rest =>
      simp [expr_bp] at h
      have := lhs_loop_length ih fuel _ _ _ _ _ h
      simp only [List.length_cons]
      omega
    | Token.op c :: rest =>
      by_cases hpar : c = '('
      · subst hpar
        rcases hr : expr_bp fuel rest 0 with - | ⟨e | ⟨lhs, ts2⟩⟩ <;>
          simp [expr_bp, hr] at h
        have h1 := ih _ _ _ _ hr
        have h2 := next_snd_length ts2
        have h3 := lhs_loop_length ih fuel _ _ _ _ _ h
        simp only [List.length_cons]
        omega
      · rcases hpre : prefix_binding_power c with e | r_bp
        · simp [expr_bp, hpar, hpre] at h
        · rcases hr : expr_bp fuel rest r_bp with - | ⟨e | ⟨rhs, ts2⟩⟩ <;>
            simp [expr_bp, hpar, hpre, hr] at h
          have h1 := ih _ _ _ _ hr
          have h2 := lhs_loop_length ih fuel _ _ _ _ _ h
          simp only [List.length_cons]
          omega

/-- Fuel monotonicity of the loop: an answer reached with some fuel (and
some sub-parser) is still reached with more fuel and a sub-parser that
agrees on every answer the first one produces. -/
theorem lhs_loop_mono {recur recur' : List Token → Nat → ParseOut}
    (hrec : ∀ ts m r, recur ts m = some r → recur' ts m = some r) :
    ∀ fuel fuel', fuel ≤ fuel' → ∀ lhs ts m r,
      lhs_loop recur fuel lhs ts m = some r → lhs_loop recur' fuel' lhs ts m = some r := by
  intro fuel
  induction fuel with
  | zero => intro fuel' hle lhs ts m r h; simp [lhs_loop] at h
  | succ fuel ih =>
    intro fuel' hle lhs ts m r h
    cases fuel' with
    | zero => omega
    | succ fuel2 =>
    have hle2 : fuel ≤ fuel2 := by omega
    match ts with
    | [] =>
      simp [lhs_loop] at h ⊢
      exact h
    | Token.eof :: rest =>
      simp [lhs_loop] at h ⊢
      exact h
    | Token.atom c :: rest =>
      simp [lhs_loop] at h ⊢
      exact h
    | Token.op o :: rest =>
      rcases hpost : postfix_binding_power o with - | l_bp
      · rcases hinf : infix_binding_power o with - | ⟨l_bp, r_bp⟩
        · simp [lhs_loop, hpost, hinf] at h ⊢
          exact h
        · by_cases hlt : l_bp < m
          · simp [lhs_loop, hpost, hinf, hlt] at h ⊢
            exact h
          · by_cases hq : o = '?'
            · subst hq
              rcases hr : recur rest 0 with - | ⟨e | ⟨mhs, ts2⟩⟩
              · simp [lhs_loop, hpost, hinf, hlt, hr] at h
              · simp [lhs_loop, hpost, hinf, hlt, hr, hrec _ _ _ hr] at h ⊢
                exact h
              · by_cases hc : (next ts2).1 = Token.op ':'
                · rcases hr2 : recur (next ts2).2 r_bp with - | ⟨e | ⟨rhs, ts3⟩⟩
                  · simp [lhs_loop, hpost, hinf, hlt, hr, hrec _ _ _ hr, hc, hr2] at h
                  · simp [lhs_loop, hpost, hinf, hlt, hr, hrec _ _ _ hr, hc, hr2,
                      hrec _ _ _ hr2] at h ⊢
                    exact h
                  · simp [lhs_loop, hpost, hinf, hlt, hr, hrec _ _ _ hr, hc, hr2,
                      hrec _ _ _ hr2] at h ⊢
                    exact ih fuel2 hle2 _ _ _ _ h
                · simp [lhs_loop, hpost, hinf, hlt, hr, hrec _ _ _ hr, hc] at h ⊢
                  exact h
            · rcases hr : recur rest r_bp with - | ⟨e | ⟨rhs, ts2⟩⟩
              · simp [lhs_loop, hpost, hinf, hlt, hq, hr] at h
              · simp [lhs_loop, hpost, hinf, hlt, hq, hr, hrec _ _ _ hr] at h ⊢
                exact h
              · simp [lhs_loop, hpost, hinf, hlt, hq, hr, hrec _ _ _ hr] at h ⊢
                exact ih fuel2 hle2 _ _ _ _ h
      · by_cases hlt : l_bp < m
        · simp [lhs_loop, hpost, hlt] at h ⊢
          exact h
        · by_cases hbr : o = '['
          · subst hbr
            rcases hr : recur rest 0 with - | ⟨e | ⟨rhs, ts2⟩⟩
            · simp [lhs_loop, hpost, hlt, hr] at h
            · simp [lhs_loop, hpost, hlt, hr, hrec _ _ _ hr] at h ⊢
              exact h
            · by_cases hc : (next ts2).1 = Token.op ']'
              · simp [lhs_loop, hpost, hlt, hr, hrec _ _ _ hr, hc] at h ⊢
                exact ih fuel2 hle2 _ _ _ _ h
              · simp [lhs_loop, hpost, hlt, hr, hrec _ _ _ hr, hc] at h ⊢
                exact h
          · simp [lhs_loop, hpost, hlt, hbr] at h ⊢
            exact ih fuel2 hle2 _ _ _ _ h

/-- Fuel monotonicity of the parser: an answer reached with some fuel is
still reached with any larger fuel. -/
theorem expr_bp_mono :
    ∀ fuel fuel', fuel ≤ fuel' → ∀ ts m r,
      expr_bp fuel ts m = some r → expr_bp fuel' ts m = some r := by
  intro fuel
  induction fuel with
  | zero => intro fuel' hle ts m r h; simp [expr_bp] at h
  | succ fuel ih =>
    intro fuel' hle ts m r h
    cases fuel' with
    | zero => omega
    | succ fuel2 =>
    have hle2 : fuel ≤ fuel2 := by omega
    have hrec : ∀ ts m r, expr_bp fuel ts m = some r → expr_bp fuel2 ts m = some r :=
      fun ts m r h => ih fuel2 hle2 ts m r h
    match ts with
    | [] =>
      simp [expr_bp] at h ⊢
      exact h
    | Token.eof :: rest =>
      simp [expr_bp] at h ⊢
      exact h
    | Token.atom c :: rest =>
      simp [expr_bp] at h ⊢
      exact lhs_loop_mono hrec fuel fuel2 hle2 _ _ _ _ h
    | Token.op c :: rest =>
      by_cases hpar : c = '('
      · subst hpar
        rcases hr : expr_bp fuel rest 0 with - | ⟨e | ⟨lhs, ts2⟩⟩
        · simp [expr_bp, hr] at h
        · simp [expr_bp, hr, hrec _ _ _ hr] at h ⊢
          exact h
        · simp [expr_bp, hr, hrec _ _ _ hr] at h ⊢
          exact lhs_loop_mono hrec fuel fuel2 hle2 _ _ _ _ h
      · rcases hpre : prefix_binding_power c with e | r_bp
        · simp [expr_bp, hpar, hpre] at h ⊢
          exact h
        · rcases hr : expr_bp fuel rest r_bp with - | ⟨e | ⟨rhs, ts2⟩⟩
          · simp [expr_bp, hpar, hpre, hr] at h
          · simp [expr_bp, hpar, hpre, hr, hrec _ _ _ hr] at h ⊢
            exact h
          · simp [expr_bp, hpar, hpre, hr, hrec _ _ _ hr] at h ⊢
            exact lhs_loop_mono hrec fuel fuel2 hle2 _ _ _ _ h

/-- Fuel sufficiency for the loop: one fuel unit over the number of
remaining tokens is enough, because every iteration that continues consumes
at least one token.  `f` bounds the fuel at which the sub-parser `recur` is
known to be total on shorter queues. -/
theorem lhs_loop_total {recur : List Token → Nat → ParseOut} {f : Nat}
    (hrecN : ∀ ts m, ts.length + 1 ≤ f → recur ts m ≠ none)
    (hrecC : ∀ ts m s ts', recur ts m = some (Except.ok (s, ts')) → ts'.length < ts.length) :
    ∀ fuel lhs ts m, ts.length + 1 ≤ fuel → fuel ≤ f → lhs_loop recur fuel lhs ts m ≠ none := by
  intro fuel
  induction fuel with
  | zero => intro lhs ts m h1 h2; omega
  | succ fuel ih =>
    intro lhs ts m h1 h2
    match ts with
    | [] => simp [lhs_loop]
    | Token.eof :: rest => simp [lhs_loop]
    | Token.atom c :: rest => simp [lhs_loop]
    | Token.op o :: rest =>
      simp only [List.length_cons] at h1
      rcases hpost : postfix_binding_power o with - | l_bp
      · rcases hinf : infix_binding_power o with - | ⟨l_bp, r_bp⟩
        · simp [lhs_loop, hpost, hinf]
        · by_cases hlt : l_bp < m
          · simp [lhs_loop, hpost, hinf, hlt]
          · by_cases hq : o = '?'
            · subst hq
              rcases hr : recur rest 0 with - | ⟨e | ⟨mhs, ts2⟩⟩
              · exact absurd hr (hrecN _ _ (by omega))
              · simp [lhs_loop, hpost, hinf, hlt, hr]
              · by_cases hc : (next ts2).1 = Token.op ':'
                · have hb1 := hrecC _ _ _ _ hr
                  have hb2 := next_snd_length ts2
                  rcases hr2 : recur (next ts2).2 r_bp with - | ⟨e | ⟨rhs, ts3⟩⟩
                  · exact absurd hr2 (hrecN _ _ (by omega))
                  · simp [lhs_loop, hpost, hinf, hlt, hr, hc, hr2]
                  · have hb3 := hrecC _ _ _ _ hr2
                    simp [lhs_loop, hpost, hinf, hlt, hr, hc, hr2]
                    exact ih _ _ _ (by omega) (by omega)
                · simp [lhs_loop, hpost, hinf, hlt, hr, hc]
            · rcases hr : recur rest r_bp with - | ⟨e | ⟨rhs, ts2⟩⟩
              · exact absurd hr (hrecN _ _ (by omega))
              · simp [lhs_loop, hpost, hinf, hlt, hq, hr]
              · have hb1 := hrecC _ _ _ _ hr
                simp [lhs_loop, hpost, hinf, hlt, hq, hr]
                exact ih _ _ _ (by omega) (by omega)
      · by_cases hlt : l_bp < m
        · simp [lhs_loop, hpost, hlt]
        · by_cases hbr : o = '['
          · subst hbr
            rcases hr : recur rest 0 with - | ⟨e | ⟨rhs, ts2⟩⟩
            · exact absurd hr (hrecN _ _ (by omega))
            · simp [lhs_loop, hpost, hlt, hr]
            · by_cases hc : (next ts2).1 = Token.op ']'
              · have hb1 := hrecC _ _ _ _ hr
                have hb2 := next_snd_length ts2
                simp [lhs_loop, hpost, hlt, hr, hc]
                exact ih _ _ _ (by omega) (by omega)
              · simp [lhs_loop, hpost, hlt, hr, hc]
          · simp [lhs_loop, hpost, hlt, hbr]
            exact ih _ _ _ (by omega) (by omega)

/-- Fuel sufficiency for the parser: fuel `tokens.length + 1` never runs
out.  This is the termination argument of `expr_bp`: step 1 consumes a
token before each recursive descent, and every loop iteration that does not
break consumes at least one token. -/
theorem expr_bp_total :
    ∀ fuel ts m, ts.length + 1 ≤ fuel → expr_bp fuel ts m ≠ none := by
  intro fuel
  induction fuel with
  | zero => intro ts m h; omega
  | succ fuel ih =>
    intro ts m h
    match ts with
    | [] => simp [expr_bp]
    | Token.eof :: rest => simp [expr_bp]
    | Token.atom c :: rest =>
      simp only [List.length_cons] at h
      simp [expr_bp]
      exact lhs_loop_total ih (expr_bp_length fuel) fuel _ _ _ (by omega) (Nat.le_refl fuel)
    | Token.op c :: rest =>
      simp only [List.length_cons] at h
      by_cases hpar : c = '('
      · subst hpar
        rcases hr : expr_bp fuel rest 0 with - | ⟨e | ⟨lhs, ts2⟩⟩
        · exact absurd hr (ih _ _ (by omega))
        · simp [expr_bp, hr]
        · have hb1 := expr_bp_length fuel _ _ _ _ hr
          have hb2 := next_snd_length ts2
          simp [expr_bp, hr]
          exact lhs_loop_total ih (expr_bp_length fuel) fuel _ _ _ (by omega) (Nat.le_refl fuel)
      · rcases hpre : prefix_binding_power c with e | r_bp
        · simp [expr_bp, hpar, hpre]
        · rcases hr : expr_bp fuel rest r_bp with - | ⟨e | ⟨rhs, ts2⟩⟩
          · exact absurd hr (ih _ _ (by omega))
          · simp [expr_bp, hpar, hpre, hr]
          · have hb1 := expr_bp_length fuel _ _ _ _ hr
            simp [expr_bp, hpar, hpre, hr]
            exact lhs_loop_total ih (expr_bp_length fuel) fuel _ _ _ (by omega) (Nat.le_refl fuel)

/-- Relation between the token queue of a plain run and the queue of the
same run inside one added pair of parentheses: the wrapped queue carries the
extra closing `)` at its end, until the vacuous assert of line 111 of a
nested `(` absorbs it, after which both queues are empty. -/
def wrap_rel (st wst : List Token) : Prop :=
  wst = st ++ [Token.op ')'] ∨ (st = [] ∧ wst = [])

/-- On a non-empty plain queue the relation determines the wrapped queue:
same front token, related tails. -/
theorem wrap_rel_cons {t : Token} {rest wst : List Token} (h : wrap_rel (t :: rest) wst) :
    wst = t :: (rest ++ [Token.op ')']) := by
  rcases h with h | ⟨h, -⟩
  · simpa using h
  · simp at h

/-- Popping one token from both queues preserves the relation. -/
theorem wrap_rel_tail {a b : List Token} (h : wrap_rel a b) :
    wrap_rel (next a).2 (next b).2 := by
  rcases a with - | ⟨t, rest⟩
  · rcases h with h | ⟨-, h⟩ <;> subst h <;> right <;> simp
  · rw [wrap_rel_cons h]
    left
    simp

/-- Simulation for the loop: a successful plain run and the run on the
queue extended by the closing `)` produce the same tree, and their final
queues are again related.  The extension breaks at `)` exactly where the
plain run breaks at `Eof`, because `)` has neither a postfix nor an infix
binding power. -/
theorem lhs_loop_sim {recur : List Token → Nat → ParseOut}
    (hsim : ∀ st wst m s st', wrap_rel st wst → recur st m = some (Except.ok (s, st')) →
      ∃ wst', recur wst m = some (Except.ok (s, wst')) ∧ wrap_rel st' wst') :
    ∀ fuel lhs st wst m s st', wrap_rel st wst →
      lhs_loop recur fuel lhs st m = some (Except.ok (s, st')) →
      ∃ wst', lhs_loop recur fuel lhs wst m = some (Except.ok (s, wst')) ∧
        wrap_rel st' wst' := by
  intro fuel
  induction fuel with
  | zero => intro lhs st wst m s st' hrel h; simp [lhs_loop] at h
  | succ fuel ih =>
    intro lhs st wst m s st' hrel h
    match st with
    | [] =>
      simp [lhs_loop] at h
      obtain ⟨rfl, rfl⟩ := h
      rcases hrel with hw | ⟨-, hw⟩ <;> subst hw
      · refine ⟨[Token.op ')'], ?_, Or.inl rfl⟩
        have hp : postfix_binding_power ')' = none := rfl
        have hi : infix_binding_power ')' = none := rfl
        simp [lhs_loop, hp, hi]
      · exact ⟨[], by simp [lhs_loop], Or.inr ⟨rfl, rfl⟩⟩
    | Token.eof :: rest =>
      rw [wrap_rel_cons hrel]
      simp [lhs_loop] at h
      obtain ⟨rfl, rfl⟩ := h
      exact ⟨Token.eof :: (rest ++ [Token.op ')']), by simp [lhs_loop], Or.inl (by simp)⟩
    | Token.atom c :: rest =>
      simp [lhs_loop] at h
    | Token.op o :: rest =>
      rw [wrap_rel_cons hrel]
      have hrel' : wrap_rel rest (rest ++ [Token.op ')']) := Or.inl rfl
      rcases hpost : postfix_binding_power o with - | l_bp
      · rcases hinf : infix_binding_power o with - | ⟨l_bp, r_bp⟩
        · simp [lhs_loop, hpost, hinf] at h
          obtain ⟨rfl, rfl⟩ := h
          exact ⟨Token.op o :: (rest ++ [Token.op ')']),
            by simp [lhs_loop, hpost, hinf], Or.inl (by simp)⟩
        · by_cases hlt : l_bp < m
          · simp [lhs_loop, hpost, hinf, hlt] at h
            obtain ⟨rfl, rfl⟩ := h
            exact ⟨Token.op o :: (rest ++ [Token.op ')']),
              by simp [lhs_loop, hpost, hinf, hlt], Or.inl (by simp)⟩
          · by_cases hq : o = '?'
            · subst hq
              rcases hr : recur rest 0 with - | ⟨e | ⟨mhs, ts2⟩⟩
              · simp [lhs_loop, hpost, hinf, hlt, hr] at h
              · simp [lhs_loop, hpost, hinf, hlt, hr] at h
              · obtain ⟨wts2, hw1, hw2⟩ := hsim _ _ _ _ _ hrel' hr
                rcases ts2 with - | ⟨t2, r2⟩
                · simp [lhs_loop, hpost, hinf, hlt, hr] at h
                · by_cases ht2 : t2 = Token.op ':'
                  · subst ht2
                    rw [wrap_rel_cons hw2] at hw1
                    rcases hr2 : recur r2 r_bp with - | ⟨e | ⟨rhs, ts3⟩⟩
                    · simp [lhs_loop, hpost, hinf, hlt, hr, hr2] at h
                    · simp [lhs_loop, hpost, hinf, hlt, hr, hr2] at h
                    · obtain ⟨wts3, hw3, hw4⟩ := hsim _ _ _ _ _ (Or.inl rfl) hr2
                      simp [lhs_loop, hpost, hinf, hlt, hr, hr2] at h
                      obtain ⟨wst', hl, hrel2⟩ := ih _ _ _ _ _ _ hw4 h
                      refine ⟨wst', ?_, hrel2⟩
                      simp [lhs_loop, hpost, hinf, hlt, hw1, hw3]
                      exact hl
                  · simp [lhs_loop, hpost, hinf, hlt, hr, ht2] at h
            · rcases hr : recur rest r_bp with - | ⟨e | ⟨rhs, ts2⟩⟩
              · simp [lhs_loop, hpost, hinf, hlt, hq, hr] at h
              · simp [lhs_loop, hpost, hinf, hlt, hq, hr] at h
              · obtain ⟨wts2, hw1, hw2⟩ := hsim _ _ _ _ _ hrel' hr
                simp [lhs_loop, hpost, hinf, hlt, hq, hr] at h
                obtain ⟨wst', hl, hrel2⟩ := ih _ _ _ _ _ _ hw2 h
                refine ⟨wst', ?_, hrel2⟩
                simp [lhs_loop, hpost, hinf, hlt, hq, hw1]
                exact hl
      · by_cases hlt : l_bp < m
        · simp [lhs_loop, hpost, hlt] at h
          obtain ⟨rfl, rfl⟩ := h
          exact ⟨Token.op o :: (rest ++ [Token.op ')']),
            by simp [lhs_loop, hpost, hlt], Or.inl (by simp)⟩
        · by_cases hbr : o = '['
          · subst hbr
            rcases hr : recur rest 0 with - | ⟨e | ⟨rhs, ts2⟩⟩
            · simp [lhs_loop, hpost, hlt, hr] at h
            · simp [lhs_loop, hpost, hlt, hr] at h
            · obtain ⟨wts2, hw1, hw2⟩ := hsim _ _ _ _ _ hrel' hr
              rcases ts2 with - | ⟨t2, r2⟩
              · simp [lhs_loop, hpost, hlt, hr] at h
              · by_cases ht2 : t2 = Token.op ']'
                · subst ht2
                  rw [wrap_rel_cons hw2] at hw1
                  simp [lhs_loop, hpost, hlt, hr] at h
                  obtain ⟨wst', hl, hrel2⟩ := ih _ _ _ _ _ _ (Or.inl rfl) h
                  refine ⟨wst', ?_, hrel2⟩
                  simp [lhs_loop, hpost, hlt, hw1]
                  exact hl
                · simp [lhs_loop, hpost, hlt, hr, ht2] at h
          · simp [lhs_loop, hpost, hlt, hbr] at h
            obtain ⟨wst', hl, hrel2⟩ := ih _ _ _ _ _ _ hrel' h
            refine ⟨wst', ?_, hrel2⟩
            simp [lhs_loop, hpost, hlt, hbr]
            exact hl

/-- Simulation for the parser: a successful plain `expr_bp` run and the run
on the queue extended by the closing `)` of an enclosing group produce the
same tree, with related final queues. -/
theorem expr_bp_sim :
    ∀ fuel st wst m s st', wrap_rel st wst →
      expr_bp fuel st m = some (Except.ok (s, st')) →
      ∃ wst', expr_bp fuel wst m = some (Except.ok (s, wst')) ∧ wrap_rel st' wst' := by
  intro fuel
  induction fuel with
  | zero => intro st wst m s st' hrel h; simp [expr_bp] at h
  | succ fuel ih =>
    intro st wst m s st' hrel h
    match st with
    | [] => simp [expr_bp] at h
    | Token.eof :: rest => simp [expr_bp] at h
    | Token.atom c :: rest =>
      rw [wrap_rel_cons hrel]
      simp [expr_bp] at h ⊢
      exact lhs_loop_sim ih fuel _ _ _ _ _ _ (Or.inl rfl) h
    | Token.op c :: rest =>
      rw [wrap_rel_cons hrel]
      have hrel' : wrap_rel rest (rest ++ [Token.op ')']) := Or.inl rfl
      by_cases hpar : c = '('
      · subst hpar
        rcases hr : expr_bp fuel rest 0 with - | ⟨e | ⟨lhs, ts2⟩⟩
        · simp [expr_bp, hr] at h
        · simp [expr_bp, hr] at h
        · obtain ⟨wts2, hw1, hw2⟩ := ih _ _ _ _ _ hrel' hr
          simp [expr_bp, hr] at h
          obtain ⟨wst', hl, hrel2⟩ := lhs_loop_sim ih fuel _ _ _ _ _ _ (wrap_rel_tail hw2) h
          refine ⟨wst', ?_, hrel2⟩
          simp [expr_bp, hw1]
          exact hl
      · rcases hpre : prefix_binding_power c with e | r_bp
        · simp [expr_bp, hpar, hpre] at h
        · rcases hr : expr_bp fuel rest r_bp with - | ⟨e | ⟨rhs, ts2⟩⟩
          · simp [expr_bp, hpar, hpre, hr] at h
          · simp [expr_bp, hpar, hpre, hr] at h
          · obtain ⟨wts2, hw1, hw2⟩ := ih _ _ _ _ _ hrel' hr
            simp [expr_bp, hpar, hpre, hr] at h
            obtain ⟨wst', hl, hrel2⟩ := lhs_loop_sim ih fuel _ _ _ _ _ _ hw2 h
            refine ⟨wst', ?_, hrel2⟩
            simp [expr_bp, hpar, hpre, hw1]
            exact hl

/-- The lexer processes a concatenation piecewise: space removal and
per-character classification both distribute over append. -/
theorem tokenize_append (a b : String) :
    tokenize (a ++ b) = tokenize a ++ tokenize b := by
  simp [tokenize, String.data_append]

/-- One-step unfolding of `expr_bp` at a front `(` token, with the fuel
left abstract. -/
theorem expr_bp_paren_step (f : Nat) (L : List Token) (m : Nat) :
    expr_bp (f + 1) (Token.op '(' :: L) m =
      match expr_bp f L 0 with
      | none => none
      | some (Except.error e) => some (Except.error e)
      | some (Except.ok (lhs, ts2)) => lhs_loop (expr_bp f) f lhs (next ts2).2 m := by
  simp [expr_bp]

/-- The loop run on an exhausted queue breaks at once and returns its
left-hand side. -/
theorem lhs_loop_nil_step {recur : List Token → Nat → ParseOut} {f : Nat} {lhs : S}
    {m : Nat} : lhs_loop recur (f + 1) lhs [] m = some (Except.ok (lhs, [])) := by
  simp [lhs_loop]

/-- Wrapping an input whose parse succeeds and consumes the whole token
queue in one pair of parentheses yields the very same tree: the added `(`
enters the grouping branch of step 1, the inner run proceeds exactly as the
plain run by `expr_bp_sim`, and the vacuous assert of line 111 absorbs the
added `)` (or the `Eof` the inner run already stopped at). -/
theorem expr_paren_wrap (s : String) (t : S)
    (h : expr_bp ((tokenize s).length + 1) (tokenize s) 0 = some (Except.ok (t, []))) :
    expr ("(" ++ s ++ ")") = some (Except.ok t) := by
  have h1 : tokenize "(" = [Token.op '('] := rfl
  have h2 : tokenize ")" = [Token.op ')'] := rfl
  have htok : tokenize ("(" ++ s ++ ")") = Token.op '(' :: (tokenize s ++ [Token.op ')']) := by
    rw [tokenize_append, tokenize_append, h1, h2]
    simp
  have hmono := expr_bp_mono _ _ (Nat.le_succ _) _ _ _ h
  obtain ⟨wst', hw1, hw2⟩ :=
    expr_bp_sim ((tokenize s).length + 1 + 1) (tokenize s) (tokenize s ++ [Token.op ')'])
      0 t [] (Or.inl rfl) hmono
  have hnil : (next wst').2 = [] := by
    rcases hw2 with hw | ⟨-, hw⟩ <;> subst hw <;> rfl
  have hfin : expr_bp ((tokenize ("(" ++ s ++ ")")).length + 1)
      (tokenize ("(" ++ s ++ ")")) 0 = some (Except.ok (t, [])) := by
    rw [htok]
    have hlen : (Token.op '(' :: (tokenize s ++ [Token.op ')'])).length + 1
        = ((tokenize s).length + 1 + 1) + 1 := by simp
    rw [hlen, expr_bp_paren_step, hw1]
    simp only []
    rw [hnil]
    exact lhs_loop_nil_step
  simp [expr, hfin]

/-- C1: the claim says that after parsing a parenthesized group the parser
requires the next token to be `)` and fails hard otherwise.  The code does
not: line 111 reads `assert lexer.next(), Token.Op(")")`, a two-argument
assert whose condition is the popped `Token` itself — always truthy — so
the check never fires.  On `"(1]"` the stray `]` is silently consumed and
on `"(1"` the missing `)` goes unnoticed; both parses succeed with the
leaf `1` instead of failing. -/
theorem claim_c1_missing_paren_check :
    expr "(1]" = some (Except.ok (S.atom '1')) ∧
    expr "(1" = some (Except.ok (S.atom '1')) ∧
    S.to_string (S.atom '1') = "1" :=
  ⟨rfl, rfl, rfl⟩

/-- C2: multiplication binds tighter than addition and `+` is
left-associative — `"1 + 2 * 3"` parses to a tree printing `(+ 1 (* 2 3))`
and `"a + b + c"` to one printing `(+ (+ a b) c)`, with the binding-power
table giving `+` the pair (5, 6) and `*` the pair (7, 8). -/
theorem claim_c2_precedence_left_assoc :
    (∃ t, expr "1 + 2 * 3" = some (Except.ok t) ∧ S.to_string t = "(+ 1 (* 2 3))") ∧
    (∃ t, expr "a + b + c" = some (Except.ok t) ∧ S.to_string t = "(+ (+ a b) c)") ∧
    infix_binding_power '+' = some (5, 6) ∧ infix_binding_power '*' = some (7, 8) :=
  ⟨⟨S.cons '+' [S.atom '1', S.cons '*' [S.atom '2', S.atom '3']], rfl, rfl⟩,
   ⟨S.cons '+' [S.cons '+' [S.atom 'a', S.atom 'b'], S.atom 'c'], rfl, rfl⟩,
   rfl, rfl⟩

/-- C3: the infix operators `=` and `.` are right-associative —
`"a = b = c"` parses to a tree printing `(= a (= b c))` and `"f . g . h"`
to one printing `(. f (. g h))`, with right binding power below left in
their table entries (2, 1) and (14, 13). -/
theorem claim_c3_right_assoc :
    (∃ t, expr "a = b = c" = some (Except.ok t) ∧ S.to_string t = "(= a (= b c))") ∧
    (∃ t, expr "f . g . h" = some (Except.ok t) ∧ S.to_string t = "(. f (. g h))") ∧
    infix_binding_power '=' = some (2, 1) ∧ infix_binding_power '.' = some (14, 13) :=
  ⟨⟨S.cons '=' [S.atom 'a', S.cons '=' [S.atom 'b', S.atom 'c']], rfl, rfl⟩,
   ⟨S.cons '.' [S.atom 'f', S.cons '.' [S.atom 'g', S.atom 'h']], rfl, rfl⟩,
   rfl, rfl⟩

/-- C4: the ternary `?` builds a 3-child cons node and is right-associative
— `"a ? b : c ? d : e"` parses to the 3-child tree printing
`(? a b (? c d e))`; the required `:` after the middle operand is a real
`==` assert, so `"a ? b"` fails with an assertion error; the table entry of
`?` is (4, 3). -/
theorem claim_c4_ternary :
    (∃ t, expr "a ? b : c ? d : e" = some (Except.ok t) ∧
      S.to_string t = "(? a b (? c d e))") ∧
    expr "a ? b" = some (Except.error Err.assertionError) ∧
    infix_binding_power '?' = some (4, 3) :=
  ⟨⟨S.cons '?' [S.atom 'a', S.atom 'b', S.cons '?' [S.atom 'c', S.atom 'd', S.atom 'e']],
    rfl, rfl⟩, rfl, rfl⟩

/-- C5: postfix operators carry left binding power 11, above the prefix
right binding power 9, so `"-9!"` parses to a tree printing `(- (! 9))`;
indexing builds a 2-child node, chains left-associatively — `"x[0][1]"`
prints `([ ([ x 0) 1)` — and its closing `]` is a real `==` assert, so
`"x[0"` fails with an assertion error. -/
theorem claim_c5_postfix :
    (∃ t, expr "-9!" = some (Except.ok t) ∧ S.to_string t = "(- (! 9))") ∧
    (∃ t, expr "x[0][1]" = some (Except.ok t) ∧ S.to_string t = "([ ([ x 0) 1)") ∧
    postfix_binding_power '!' = some 11 ∧ postfix_binding_power '[' = some 11 ∧
    prefix_binding_power '-' = Except.ok 9 ∧ 9 < 11 ∧
    expr "x[0" = some (Except.error Err.assertionError) :=
  ⟨⟨S.cons '-' [S.cons '!' [S.atom '9']], rfl, rfl⟩,
   ⟨S.cons '[' [S.cons '[' [S.atom 'x', S.atom '0'], S.atom '1'], rfl, rfl⟩,
   rfl, rfl, rfl, by omega, rfl⟩

/-- C6: `prefix_binding_power` returns right binding power 9 exactly for
`+` and `-` and raises `BadOpError` for every other operator character, so
`"*1"` fails with a BadOp-category error. -/
theorem claim_c6_bad_prefix_op :
    (∀ c : Char, c ≠ '+' → c ≠ '-' →
      prefix_binding_power c = Except.error (Err.badOp c)) ∧
    prefix_binding_power '+' = Except.ok 9 ∧ prefix_binding_power '-' = Except.ok 9 ∧
    expr "*1" = some (Except.error (Err.badOp '*')) := by
  refine ⟨?_, rfl, rfl, rfl⟩
  intro c h1 h2
  unfold prefix_binding_power
  split
  · exact absurd rfl h1
  · exact absurd rfl h2
  · rfl

/-- C6 witness: the general part of `claim_c6_bad_prefix_op` applied at the
concrete operator `*`. -/
theorem claim_c6_witness :
    ('*' : Char) ≠ '+' ∧ ('*' : Char) ≠ '-' ∧
    prefix_binding_power '*' = Except.error (Err.badOp '*') :=
  ⟨by decide, by decide, claim_c6_bad_prefix_op.1 '*' (by decide) (by decide)⟩

/-- C7: whenever an operand is expected (entry of `expr_bp`, where the
lexer yields `Eof` exactly on the empty queue) and the next token is `Eof`,
the parser raises `BadTokenError` — at any fuel and any `min_bp`; in
particular `"1 +"` and the empty input both fail that way. -/
theorem claim_c7_eof_bad_token :
    (∀ f m : Nat, expr_bp (f + 1) [] m = some (Except.error (Err.badToken Token.eof))) ∧
    expr "1 +" = some (Except.error (Err.badToken Token.eof)) ∧
    expr "" = some (Except.error (Err.badToken Token.eof)) :=
  ⟨fun _ _ => rfl, rfl, rfl⟩

/-- C8 counterexample: the round-trip claim fails at `s = "1 @ 2"` — the
plain parse succeeds (returning the leaf `1` and ignoring `@ 2`), but the
parenthesized input fails with `BadTokenError` on the atom `2`, because the
vacuous assert of line 111 consumes the stray `@` and the outer loop then
peeks an atom. -/
theorem claim_c8_counterexample :
    expr "1 @ 2" = some (Except.ok (S.atom '1')) ∧
    expr ("(" ++ "1 @ 2" ++ ")") = some (Except.error (Err.badToken (Token.atom '2'))) :=
  ⟨rfl, rfl⟩

/-- C8 (amended): for every input string whose parse succeeds AND consumes
the entire token queue, wrapping in one pair of parentheses succeeds and
prints identically. -/
theorem claim_c8_paren_roundtrip (s : String) (t : S)
    (h : expr_bp ((tokenize s).length + 1) (tokenize s) 0 = some (Except.ok (t, []))) :
    expr s = some (Except.ok t) ∧
    ∃ t', expr ("(" ++ s ++ ")") = some (Except.ok t') ∧
      S.to_string t' = S.to_string t :=
  ⟨by simp [expr, h], t, expr_paren_wrap s t h, rfl⟩

/-- C8 witness: the amended round-trip applied at the concrete input `"1"`,
whose parse consumes the whole queue. -/
theorem claim_c8_witness :
    expr_bp ((tokenize "1").length + 1) (tokenize "1") 0
        = some (Except.ok (S.atom '1', [])) ∧
    (expr "1" = some (Except.ok (S.atom '1')) ∧
      ∃ t', expr ("(" ++ "1" ++ ")") = some (Except.ok t') ∧
        S.to_string t' = S.to_string (S.atom '1')) :=
  ⟨rfl, claim_c8_paren_roundtrip "1" (S.atom '1') rfl⟩

/-- C9: when the token after a complete left-hand side is an operator with
neither a postfix nor an infix binding power, the loop breaks and returns
the tree built so far without consuming anything — at any fuel, loop state
and `min_bp`; in particular `expr "1 @ 2"` succeeds with the bare leaf `1`,
silently ignoring `@ 2`. -/
theorem claim_c9_unknown_op_breaks :
    (∀ (recur : List Token → Nat → ParseOut) (f : Nat) (lhs : S) (o : Char)
      (rest : List Token) (m : Nat),
      postfix_binding_power o = none → infix_binding_power o = none →
      lhs_loop recur (f + 1) lhs (Token.op o :: rest) m
        = some (Except.ok (lhs, Token.op o :: rest))) ∧
    expr "1 @ 2" = some (Except.ok (S.atom '1')) := by
  refine ⟨?_, rfl⟩
  intro recur f lhs o rest m hpost hinf
  simp [lhs_loop, hpost, hinf]

/-- C9 witness: the break applied at the concrete operator `@` and a
singleton queue. -/
theorem claim_c9_witness :
    postfix_binding_power '@' = none ∧ infix_binding_power '@' = none ∧
    lhs_loop (expr_bp 0) 1 (S.atom 'x') [Token.op '@'] 0
      = some (Except.ok (S.atom 'x', [Token.op '@'])) :=
  ⟨rfl, rfl, claim_c9_unknown_op_breaks.1 (expr_bp 0) 0 (S.atom 'x') '@' [] 0 rfl rfl⟩

/-- C10: the parser is total — with fuel `tokens.length + 1` the
fuel-indexed interpreter never runs out (every loop iteration that does not
break consumes at least one token, see `expr_bp_length` and
`lhs_loop_total`), and consequently `expr` never returns the fuel-exhausted
answer on any input string. -/
theorem claim_c10_termination :
    (∀ (ts : List Token) (m : Nat), expr_bp (ts.length + 1) ts m ≠ none) ∧
    ∀ s : String, expr s ≠ none := by
  constructor
  · intro ts m
    exact expr_bp_total _ _ _ (Nat.le_refl _)
  · intro s
    rcases h : expr_bp ((tokenize s).length + 1) (tokenize s) 0 with - | ⟨e | ⟨a, b⟩⟩
    · exact absurd h (expr_bp_total _ _ _ (Nat.le_refl _))
    · simp [expr, h]
    · simp [expr, h]

end Pratt
